import Mathlib

/-!
Verification of the hex-minesweeper core logic (src/main.rs).

The Rust program keeps its whole game state in the resource HexGrid
(entities, covered, numbers, mines, flagged).  The functions below are a
shallow embedding of that code:

  - Hex            : the axial coordinate type of the hexx crate, with
                     ulength (cube length) and ring(1) (the 6 neighbors);
  - hexagon        : shapes::hexagon(Hex::ZERO, radius), the enumeration of
                     all coordinates within the given radius;
  - minesOf        : the every-6th-enumerated-cell mine placement of setup;
  - numbersRaw     : the fold in setup that, for every mine, bumps a counter
                     for each of its ring-1 neighbors (entry.and_modify(+1)
                     .or_insert(0), so the stored value is count - 1);
  - numbersOf      : numbersRaw filtered to non-mine, within-grid keys;
  - setup          : the Startup system building the HexGrid resource;
  - floodFill      : the flood-fill loop in handle_input (left click on a
                     blank cell), with explicit fuel bounding the while
                     loop (the fuel chosen is larger than the number of
                     grid cells, which bounds the number of productive
                     rounds);
  - toggleFlag, revealAt, handle_input : the Update system handle_input;
  - cursorWithinGrid : the within-grid filter of update_cursor_pos, which
                     turns an out-of-grid hover into None;
  - runInputs      : iterating handle_input over a list of input events.

Machine integers: the Rust code uses i32 coordinates and a u8 counter; no
operation here can overflow them (coordinates stay within radius + 1 of the
origin and counters stay below 7), so they are embedded as Int and Nat.
-/

structure Hex where
  x : Int
  y : Int
deriving DecidableEq, Repr

/-- Grid radius constant of the source (GRID_RADIUS = 16).  All definitions
below are parametrized by the radius so the claims can quantify over it. -/
def GRID_RADIUS : Nat := 16

/-- Cube length of an axial coordinate: hexx computes
(abs x + abs y + abs z) / 2 with z = -x - y. -/
def Hex.ulength (h : Hex) : Nat :=
  (h.x.natAbs + h.y.natAbs + (h.x + h.y).natAbs) / 2

/-- The within-grid test of the source (is_hex_within_grid). -/
def is_hex_within_grid (R : Nat) (h : Hex) : Bool :=
  h.ulength ≤ R

/-- The six immediate neighbors of a cell, hex.ring(1) in the source. -/
def Hex.ring1 (h : Hex) : List Hex :=
  [⟨h.x + 1, h.y - 1⟩, ⟨h.x, h.y - 1⟩, ⟨h.x - 1, h.y⟩,
   ⟨h.x - 1, h.y + 1⟩, ⟨h.x, h.y + 1⟩, ⟨h.x + 1, h.y⟩]

/-- shapes::hexagon(Hex::ZERO, R): every coordinate whose cube length is at
most R, enumerated column by column. -/
def hexagon (R : Nat) : List Hex :=
  (List.range (2 * R + 1)).flatMap (fun (i : Nat) =>
    let x : Int := (i : Int) - (R : Int)
    let lo : Int := max (-(R : Int)) (-x - (R : Int))
    let hi : Int := min (R : Int) ((R : Int) - x)
    (List.range (hi + 1 - lo).toNat).map (fun (j : Nat) => ⟨x, lo + (j : Int)⟩))

/-- Mine placement in setup: keep every cell sitting at an enumeration
index divisible by 6 (entities.keys().enumerate().filter(index % 6 == 0)). -/
def minesOf (cells : List Hex) : List Hex :=
  (cells.enum.filter (fun p => p.fst % 6 == 0)).map Prod.snd

/-- One application of entry(hex).and_modify(count += 1).or_insert(0):
a missing entry becomes 0, an existing count is incremented. -/
def bumpEntry : Option Nat → Option Nat
  | none => some 0
  | some c => some (c + 1)

/-- Update the accumulated counter map at one neighbor coordinate. -/
def bumpAt (acc : Hex → Option Nat) (n : Hex) : Hex → Option Nat :=
  fun k => if k = n then bumpEntry (acc n) else acc k

/-- The fold in setup building the raw counter map: for every mine, bump
the counter of each of its ring-1 neighbors. -/
def numbersRaw (mines : List Hex) : Hex → Option Nat :=
  mines.foldl (fun acc m => m.ring1.foldl bumpAt acc) (fun _ => none)

/-- The numbers map actually stored in the HexGrid resource: the raw
counters restricted to keys that are not mines and lie within the grid. -/
def numbersOf (R : Nat) (mines : List Hex) : Hex → Option Nat :=
  fun h =>
    if h ∈ mines then none
    else if is_hex_within_grid R h then numbersRaw mines h
    else none

/-- Total number of bumps the accumulation applies at a given key: one for
each occurrence of the key among the ring-1 neighbors of each mine (a
proof-side abbreviation used to evaluate the fold numbersRaw). -/
def adjBumps (mines : List Hex) (h : Hex) : Nat :=
  (mines.map (fun m => m.ring1.count h)).sum

/-- The HexGrid resource: cells stands for the keys of the entities map,
the remaining fields are covered, numbers, mines and flagged. -/
structure HexGrid where
  cells : List Hex
  covered : Finset Hex
  numbers : Hex → Option Nat
  mines : List Hex
  flagged : Finset Hex

/-- The Startup system setup: enumerate the cells of the hexagon of the
given radius, place mines on every 6th enumerated cell, compute the
filtered neighbor-mine counters, cover everything, flag nothing. -/
def setup (R : Nat) : HexGrid :=
  let cells := hexagon R
  let mines := minesOf cells
  { cells := cells
    covered := cells.toFinset
    numbers := numbersOf R mines
    mines := mines
    flagged := ∅ }

/-- One candidate neighbor processed by the flood-fill round: the chain of
filters is_hex_within_grid, visited.insert (test-and-set) and
numbers.contains_key; a fresh within-grid neighbor always enters visited,
and additionally enters the next buffer when it is not a numbered cell. -/
def floodStepFn (R : Nat) (numbers : Hex → Option Nat) :
    List Hex × List Hex → Hex → List Hex × List Hex :=
  fun vb n =>
    if is_hex_within_grid R n then
      if n ∈ vb.1 then vb
      else if (numbers n).isSome then (n :: vb.1, vb.2)
      else (n :: vb.1, vb.2 ++ [n])
    else vb

/-- One iteration of the while loop: take the ring-1 neighbors of every
buffer cell, in order, and push each through the filter chain. -/
def floodRound (R : Nat) (numbers : Hex → Option Nat)
    (vis buf : List Hex) : List Hex × List Hex :=
  (buf.flatMap Hex.ring1).foldl (floodStepFn R numbers) (vis, [])

/-- The while loop of the flood fill, with fuel bounding the number of
iterations.  Each productive iteration strictly grows the within-grid part
of visited, so any fuel beyond the cell count leaves the loop only via an
empty buffer (flood_fuel_runs_out below). -/
def floodLoop (R : Nat) (numbers : Hex → Option Nat) :
    Nat → List Hex → List Hex → List Hex × List Hex
  | 0, vis, buf => (vis, buf)
  | fuel + 1, vis, buf =>
    if buf.isEmpty then (vis, buf)
    else floodLoop R numbers fuel (floodRound R numbers vis buf).1
      (floodRound R numbers vis buf).2

/-- The flood fill of handle_input: visited and buffer both start at the
seed; the result is the visited set when the buffer runs empty. -/
def floodFill (R : Nat) (numbers : Hex → Option Nat) (seed : Hex) : List Hex :=
  (floodLoop R numbers (3 * R * (R + 1) + 2) [seed] [seed]).1

/-- The right-click branch of handle_input (only reached when the hovered
cell is covered): toggle membership of the cell in flagged. -/
def toggleFlag (curr : Hex) (g : HexGrid) : HexGrid :=
  if curr ∈ g.flagged then { g with flagged := g.flagged.erase curr }
  else { g with flagged := insert curr g.flagged }

/-- The left-click branch of handle_input (only reached when the hovered
cell is covered and not flagged): a mine or a numbered cell only gets
uncovered itself; a blank cell triggers the flood fill, whose visited
cells are uncovered unless flagged; finally the hovered cell itself is
removed from covered. -/
def revealAt (R : Nat) (curr : Hex) (g : HexGrid) : HexGrid :=
  let g' :=
    if curr ∈ g.mines then g
    else if (g.numbers curr).isSome then g
    else
      let visited := floodFill R g.numbers curr
      { g with
        covered := visited.foldl
          (fun cov h => if h ∈ g.flagged then cov else cov.erase h) g.covered }
  { g' with covered := g'.covered.erase curr }

/-- The Update system handle_input: nothing happens without a hovered
cell; a right press toggles the flag of a covered cell; a left press on a
covered, unflagged cell reveals it.  The right branch runs first, exactly
as in the source, so a frame with both presses flags and then reveals. -/
def handle_input (R : Nat) (cursor : Option Hex) (rightBtn leftBtn : Bool)
    (g : HexGrid) : HexGrid :=
  match cursor with
  | none => g
  | some curr =>
    let g1 := if rightBtn ∧ curr ∈ g.covered then toggleFlag curr g else g
    if leftBtn ∧ curr ∉ g1.flagged ∧ curr ∈ g1.covered then revealAt R curr g1
    else g1

/-- The within-grid filter of update_cursor_pos: a hover resolving to a
coordinate outside the grid is reported as no hover at all. -/
def cursorWithinGrid (R : Nat) (hover : Option Hex) : Option Hex :=
  match hover with
  | none => none
  | some h => if is_hex_within_grid R h then some h else none

/-- One input event: the hovered coordinate (before the within-grid
filter) and which mouse buttons were just pressed this frame. -/
structure InputEvent where
  hover : Option Hex
  rightBtn : Bool
  leftBtn : Bool

/-- Run a sequence of input events through the cursor filter and
handle_input. -/
def runInputs (R : Nat) (g : HexGrid) (events : List InputEvent) : HexGrid :=
  events.foldl
    (fun g e => handle_input R (cursorWithinGrid R e.hover) e.rightBtn e.leftBtn g) g

/-! Basic facts about coordinates, neighbors and the hexagon enumeration. -/

theorem is_hex_within_grid_iff {R : Nat} {h : Hex} :
    is_hex_within_grid R h = true ↔ h.ulength ≤ R := by
  simp [is_hex_within_grid]

theorem ring1_nodup (h : Hex) : h.ring1.Nodup := by
  simp only [Hex.ring1, List.nodup_cons, List.mem_cons, List.mem_singleton,
    List.not_mem_nil, or_false, List.nodup_nil, and_true, true_and,
    Hex.mk.injEq, not_or]
  and_intros <;> first | trivial | omega

theorem mem_ring1_comm {m n : Hex} : n ∈ m.ring1 ↔ m ∈ n.ring1 := by
  cases m with
  | mk mx my =>
    cases n with
    | mk nx ny =>
      simp only [Hex.ring1, List.mem_cons, List.mem_singleton, List.not_mem_nil,
        or_false, Hex.mk.injEq]
      omega

theorem mem_hexagon {R : Nat} {h : Hex} : h ∈ hexagon R ↔ h.ulength ≤ R := by
  obtain ⟨hx, hy⟩ := h
  constructor
  · intro hm
    simp only [hexagon, List.mem_flatMap, List.mem_map, List.mem_range] at hm
    obtain ⟨i, hi, j, hj, heq⟩ := hm
    simp only [Hex.mk.injEq] at heq
    simp only [Hex.ulength]
    simp only [max_def, min_def] at hj heq
    split_ifs at hj heq <;> omega
  · intro hle
    simp only [Hex.ulength] at hle
    simp only [hexagon, List.mem_flatMap, List.mem_map, List.mem_range]
    refine ⟨(hx + R).toNat, by omega,
      (hy - max (-(R : Int)) (-hx - R)).toNat, ?_, ?_⟩
    · simp only [max_def, min_def]
      split_ifs <;> omega
    · simp only [Hex.mk.injEq, max_def, min_def]
      split_ifs <;> constructor <;> omega

theorem hexagon_nodup (R : Nat) : (hexagon R).Nodup := by
  simp only [hexagon, List.nodup_flatMap]
  constructor
  · intro i _
    refine List.Nodup.map ?_ (List.nodup_range _)
    intro a b hab
    simp only [Hex.mk.injEq] at hab
    omega
  · have hlt : List.Pairwise (· < ·) (List.range (2 * R + 1)) := List.pairwise_lt_range _
    refine hlt.imp ?_
    intro i j hij
    intro a ha hb
    simp only [List.mem_map, List.mem_range] at ha hb
    obtain ⟨j₁, _, rfl⟩ := ha
    obtain ⟨j₂, _, heq⟩ := hb
    simp only [Hex.mk.injEq] at heq
    omega

theorem sum_map_range (f : Nat → Nat) (n : Nat) :
    ((List.range n).map f).sum = ∑ i ∈ Finset.range n, f i := by
  induction n with
  | zero => simp
  | succ n ih =>
    rw [List.range_succ, List.map_append, List.sum_append, Finset.sum_range_succ, ih]
    simp

theorem sum_min_range (R : Nat) :
    ∑ i ∈ Finset.range (2 * R + 1), min i (2 * R - i) = R * R := by
  induction R with
  | zero => simp
  | succ R ih =>
    have h1 : 2 * (R + 1) + 1 = (2 * R + 2) + 1 := by ring
    rw [h1, Finset.sum_range_succ, Finset.sum_range_succ']
    have h2 : ∀ i ∈ Finset.range (2 * R + 1),
        min (i + 1) (2 * (R + 1) - (i + 1)) = min i (2 * R - i) + 1 := by
      intro i hi
      rw [Finset.mem_range] at hi
      rcases Nat.le_total i (2 * R - i) with hc | hc
      · rw [Nat.min_eq_left hc, Nat.min_eq_left (by omega)]
      · rw [Nat.min_eq_right hc, Nat.min_eq_right (by omega)]
        omega
    have e2 : min (2 * R + 2) (2 * (R + 1) - (2 * R + 2)) = 0 := by
      rw [show 2 * (R + 1) - (2 * R + 2) = 0 by omega]
      exact Nat.min_zero _
    rw [Finset.sum_congr rfl h2, Finset.sum_add_distrib, ih, e2]
    simp only [Nat.zero_min, Finset.sum_const, Finset.card_range, smul_eq_mul, mul_one]
    ring

theorem hexagon_length (R : Nat) : (hexagon R).length = 3 * R * (R + 1) + 1 := by
  rw [hexagon, List.length_flatMap, sum_map_range]
  trans (∑ i ∈ Finset.range (2 * R + 1), (R + 1 + min i (2 * R - i)))
  · refine Finset.sum_congr rfl (fun i hi => ?_)
    rw [Finset.mem_range] at hi
    simp only [Function.comp_apply, List.length_map, List.length_range]
    simp only [max_def, min_def]
    split_ifs <;> omega
  · rw [Finset.sum_add_distrib, sum_min_range]
    simp only [Finset.sum_const, Finset.card_range, smul_eq_mul, mul_one]
    ring

/-! Mine placement facts. -/

theorem minesOf_sublist (l : List Hex) : (minesOf l).Sublist l := by
  have h1 : (l.enum.filter (fun p => p.fst % 6 == 0)).Sublist l.enum :=
    List.filter_sublist _
  have h2 := h1.map Prod.snd
  rwa [List.enum_map_snd] at h2

theorem minesOf_nodup {l : List Hex} (hl : l.Nodup) : (minesOf l).Nodup :=
  hl.sublist (minesOf_sublist l)

theorem mem_minesOf {l : List Hex} {h : Hex} :
    h ∈ minesOf l ↔ ∃ i, i % 6 = 0 ∧ l[i]? = some h := by
  simp only [minesOf, List.mem_map, List.mem_filter]
  constructor
  · rintro ⟨⟨i, a⟩, ⟨hmem, hmod⟩, rfl⟩
    rw [List.mem_enum_iff_getElem?] at hmem
    exact ⟨i, by simpa using hmod, hmem⟩
  · rintro ⟨i, hmod, hget⟩
    refine ⟨(i, h), ⟨?_, by simpa using hmod⟩, rfl⟩
    rw [List.mem_enum_iff_getElem?]
    exact hget

/-! Evaluation of the counter-map fold. -/

theorem foldl_bumpAt (l : List Hex) (acc : Hex → Option Nat) (h : Hex) :
    (l.foldl bumpAt acc) h = bumpEntry^[l.count h] (acc h) := by
  induction l generalizing acc with
  | nil => rfl
  | cons a l ih =>
    rw [List.foldl_cons, ih]
    by_cases hah : a = h
    · subst hah
      rw [List.count_cons_self, Function.iterate_succ_apply]
      congr 1
      simp [bumpAt]
    · rw [List.count_cons_of_ne (fun he => hah he.symm)]
      congr 1
      simp [bumpAt, fun he => hah (Eq.symm he)]
      intro he
      exact absurd he.symm hah

theorem numbersRaw_eval (mines : List Hex) (h : Hex) :
    numbersRaw mines h = bumpEntry^[adjBumps mines h] none := by
  suffices H : ∀ acc : Hex → Option Nat,
      (mines.foldl (fun acc m => m.ring1.foldl bumpAt acc) acc) h =
        bumpEntry^[adjBumps mines h] (acc h) from H _
  induction mines with
  | nil => intro acc; rfl
  | cons m ms ih =>
    intro acc
    rw [List.foldl_cons, ih, foldl_bumpAt]
    rw [← Function.iterate_add_apply]
    congr 1
    simp only [adjBumps, List.map_cons, List.sum_cons]
    omega

theorem iterate_bumpEntry (n : Nat) :
    bumpEntry^[n] none = if n = 0 then none else some (n - 1) := by
  induction n with
  | zero => rfl
  | succ n ih =>
    rw [Function.iterate_succ_apply', ih]
    cases n <;> simp [bumpEntry]

theorem adjBumps_le_six {mines : List Hex} (hn : mines.Nodup) (h : Hex) :
    adjBumps mines h ≤ 6 := by
  have step : ∀ ms : List Hex,
      adjBumps ms h ≤ (ms.filter (fun m => decide (h ∈ m.ring1))).length := by
    intro ms
    induction ms with
    | nil => simp [adjBumps]
    | cons m ms ih =>
      simp only [adjBumps, List.map_cons, List.sum_cons, List.filter_cons] at *
      by_cases hm : h ∈ m.ring1
      · have hc : m.ring1.count h ≤ 1 :=
          List.nodup_iff_count_le_one.mp (ring1_nodup m) h
        simp only [hm, decide_True, if_true, List.length_cons]
        omega
      · have hc : m.ring1.count h = 0 := List.count_eq_zero.mpr hm
        rw [if_neg (by simpa using hm)]
        omega
  have hsub : (mines.filter (fun m => decide (h ∈ m.ring1))).length ≤
      h.ring1.length := by
    refine List.Subperm.length_le (List.subperm_of_subset (hn.filter _) ?_)
    intro a ha
    rw [List.mem_filter] at ha
    have ha2 := ha.2
    rw [decide_eq_true_iff] at ha2
    exact mem_ring1_comm.mp ha2
  have h6 : h.ring1.length = 6 := rfl
  have := step mines
  omega

theorem numbersOf_eq_some {R : Nat} {mines : List Hex} {h : Hex} {v : Nat}
    (hv : numbersOf R mines h = some v) :
    h ∉ mines ∧ h.ulength ≤ R ∧ v + 1 = adjBumps mines h := by
  by_cases hm : h ∈ mines
  · simp [numbersOf, hm] at hv
  · by_cases hg : is_hex_within_grid R h
    · refine ⟨hm, is_hex_within_grid_iff.mp hg, ?_⟩
      rw [numbersOf, if_neg hm, if_pos hg, numbersRaw_eval, iterate_bumpEntry] at hv
      rcases Nat.eq_zero_or_pos (adjBumps mines h) with h0 | h0
      · rw [if_pos h0] at hv
        exact absurd hv (by simp)
      · rw [if_neg (by omega)] at hv
        have := Option.some.inj hv
        omega
    · rw [numbersOf, if_neg hm, if_neg hg] at hv
      exact absurd hv (by simp)

theorem numbersOf_isSome_of_mine_neighbor {R : Nat} {mines : List Hex}
    {h m : Hex} (hg : h.ulength ≤ R) (hm : h ∉ mines) (hmem : m ∈ mines)
    (hadj : m ∈ h.ring1) : (numbersOf R mines h).isSome := by
  rw [numbersOf, if_neg hm, if_pos (by simpa [is_hex_within_grid] using hg),
    numbersRaw_eval, iterate_bumpEntry]
  have hcount : 0 < m.ring1.count h :=
    List.count_pos_iff.mpr (mem_ring1_comm.mp hadj)
  have hle : m.ring1.count h ≤ adjBumps mines h := by
    refine List.single_le_sum (fun x _ => Nat.zero_le x) _ ?_
    exact List.mem_map_of_mem _ hmem
  rw [if_neg (by omega)]
  rfl

/-! Flood-fill lemmas. -/

theorem floodStepFn_not_grid {R : Nat} {numbers : Hex → Option Nat}
    {vb : List Hex × List Hex} {n : Hex} (hg : ¬ is_hex_within_grid R n = true) :
    floodStepFn R numbers vb n = vb := by
  simp [floodStepFn, hg]

theorem floodStepFn_visited {R : Nat} {numbers : Hex → Option Nat}
    {vb : List Hex × List Hex} {n : Hex} (hg : is_hex_within_grid R n = true)
    (hv : n ∈ vb.1) : floodStepFn R numbers vb n = vb := by
  simp [floodStepFn, hg, hv]

theorem floodStepFn_number {R : Nat} {numbers : Hex → Option Nat}
    {vb : List Hex × List Hex} {n : Hex} (hg : is_hex_within_grid R n = true)
    (hv : n ∉ vb.1) (hn : (numbers n).isSome = true) :
    floodStepFn R numbers vb n = (n :: vb.1, vb.2) := by
  simp [floodStepFn, hg, hv, hn]

theorem floodStepFn_blank {R : Nat} {numbers : Hex → Option Nat}
    {vb : List Hex × List Hex} {n : Hex} (hg : is_hex_within_grid R n = true)
    (hv : n ∉ vb.1) (hn : ¬ (numbers n).isSome = true) :
    floodStepFn R numbers vb n = (n :: vb.1, vb.2 ++ [n]) := by
  simp [floodStepFn, hg, hv, hn]

theorem floodFold_spec (R : Nat) (numbers : Hex → Option Nat) :
    ∀ (cands vis buf : List Hex),
      (∀ h, h ∈ vis → h ∈ (cands.foldl (floodStepFn R numbers) (vis, buf)).1) ∧
      (∀ h, h ∈ (cands.foldl (floodStepFn R numbers) (vis, buf)).1 →
        h ∈ vis ∨ (h ∈ cands ∧ h.ulength ≤ R ∧ h ∉ vis)) ∧
      (∀ h, h ∈ (cands.foldl (floodStepFn R numbers) (vis, buf)).2 →
        h ∈ buf ∨ (h ∈ cands ∧ h.ulength ≤ R ∧ h ∉ vis ∧
          h ∈ (cands.foldl (floodStepFn R numbers) (vis, buf)).1 ∧
          numbers h = none)) ∧
      (vis.Nodup → (cands.foldl (floodStepFn R numbers) (vis, buf)).1.Nodup) := by
  intro cands
  induction cands with
  | nil =>
    intro vis buf
    exact ⟨fun h hh => hh, fun h hh => Or.inl hh, fun h hh => Or.inl hh, fun hn => hn⟩
  | cons c cs ih =>
    intro vis buf
    rw [List.foldl_cons]
    by_cases hg : is_hex_within_grid R c = true
    · by_cases hv : c ∈ vis
      · rw [floodStepFn_visited hg hv]
        obtain ⟨ih1, ih2, ih3, ih4⟩ := ih vis buf
        refine ⟨ih1, ?_, ?_, ih4⟩
        · intro h hh
          rcases ih2 h hh with hl | ⟨hcs, hgr, hni⟩
          · exact Or.inl hl
          · exact Or.inr ⟨List.mem_cons_of_mem _ hcs, hgr, hni⟩
        · intro h hh
          rcases ih3 h hh with hl | ⟨hcs, hgr, hni, hin, hno⟩
          · exact Or.inl hl
          · exact Or.inr ⟨List.mem_cons_of_mem _ hcs, hgr, hni, hin, hno⟩
      · by_cases hn : (numbers c).isSome = true
        · rw [floodStepFn_number hg hv hn]
          obtain ⟨ih1, ih2, ih3, ih4⟩ := ih (c :: vis) buf
          refine ⟨?_, ?_, ?_, ?_⟩
          · intro h hh
            exact ih1 h (List.mem_cons_of_mem _ hh)
          · intro h hh
            rcases ih2 h hh with hl | ⟨hcs, hgr, hni⟩
            · rcases List.mem_cons.mp hl with rfl | hvis
              · exact Or.inr ⟨List.mem_cons_self _ _,
                  is_hex_within_grid_iff.mp hg, hv⟩
              · exact Or.inl hvis
            · exact Or.inr ⟨List.mem_cons_of_mem _ hcs, hgr,
                fun hin => hni (List.mem_cons_of_mem _ hin)⟩
          · intro h hh
            rcases ih3 h hh with hl | ⟨hcs, hgr, hni, hin, hno⟩
            · exact Or.inl hl
            · exact Or.inr ⟨List.mem_cons_of_mem _ hcs, hgr,
                fun hvv => hni (List.mem_cons_of_mem _ hvv), hin, hno⟩
          · intro hnd
            exact ih4 (List.nodup_cons.mpr ⟨hv, hnd⟩)
        · rw [floodStepFn_blank hg hv hn]
          obtain ⟨ih1, ih2, ih3, ih4⟩ := ih (c :: vis) (buf ++ [c])
          refine ⟨?_, ?_, ?_, ?_⟩
          · intro h hh
            exact ih1 h (List.mem_cons_of_mem _ hh)
          · intro h hh
            rcases ih2 h hh with hl | ⟨hcs, hgr, hni⟩
            · rcases List.mem_cons.mp hl with rfl | hvis
              · exact Or.inr ⟨List.mem_cons_self _ _,
                  is_hex_within_grid_iff.mp hg, hv⟩
              · exact Or.inl hvis
            · exact Or.inr ⟨List.mem_cons_of_mem _ hcs, hgr,
                fun hin => hni (List.mem_cons_of_mem _ hin)⟩
          · intro h hh
            rcases ih3 h hh with hl | ⟨hcs, hgr, hni, hin, hno⟩
            · rcases List.mem_append.mp hl with hbuf | hc
              · exact Or.inl hbuf
              · have hcc : h = c := List.mem_singleton.mp hc
                subst hcc
                refine Or.inr ⟨List.mem_cons_self _ _,
                  is_hex_within_grid_iff.mp hg, hv,
                  ih1 h (List.mem_cons_self _ _),
                  Option.not_isSome_iff_eq_none.mp hn⟩
            · exact Or.inr ⟨List.mem_cons_of_mem _ hcs, hgr,
                fun hvv => hni (List.mem_cons_of_mem _ hvv), hin, hno⟩
          · intro hnd
            exact ih4 (List.nodup_cons.mpr ⟨hv, hnd⟩)
    · rw [floodStepFn_not_grid hg]
      obtain ⟨ih1, ih2, ih3, ih4⟩ := ih vis buf
      refine ⟨ih1, ?_, ?_, ih4⟩
      · intro h hh
        rcases ih2 h hh with hl | ⟨hcs, hgr, hni⟩
        · exact Or.inl hl
        · exact Or.inr ⟨List.mem_cons_of_mem _ hcs, hgr, hni⟩
      · intro h hh
        rcases ih3 h hh with hl | ⟨hcs, hgr, hni, hin, hno⟩
        · exact Or.inl hl
        · exact Or.inr ⟨List.mem_cons_of_mem _ hcs, hgr, hni, hin, hno⟩

theorem flood_no_mine_aux (R : Nat) (numbers : Hex → Option Nat)
    (mines : List Hex)
    (K : ∀ c, c.ulength ≤ R → c ∉ mines →
      (∃ m ∈ mines, m ∈ c.ring1) → (numbers c).isSome = true) :
    ∀ (fuel : Nat) (vis buf : List Hex),
      (∀ h ∈ vis, h ∉ mines ∧ h.ulength ≤ R) →
      (∀ h ∈ buf, h ∉ mines ∧ h.ulength ≤ R ∧ numbers h = none) →
      ∀ h ∈ (floodLoop R numbers fuel vis buf).1, h ∉ mines ∧ h.ulength ≤ R := by
  intro fuel
  induction fuel with
  | zero =>
    intro vis buf hvis _ h hh
    exact hvis h hh
  | succ fuel ih =>
    intro vis buf hvis hbuf
    rw [floodLoop]
    by_cases hemp : buf.isEmpty
    · rw [if_pos hemp]
      intro h hh
      exact hvis h hh
    · rw [if_neg hemp]
      obtain ⟨f1, f2, f3, _⟩ :=
        floodFold_spec R numbers (buf.flatMap Hex.ring1) vis []
      -- character of fresh cells: any candidate is a ring-1 neighbor of a
      -- buffer cell, and buffer cells are blank non-mines, so a candidate
      -- that is a mine would force its buffer neighbor to be numbered
      have hfresh : ∀ h, h ∈ buf.flatMap Hex.ring1 → h ∉ mines := by
        intro h hmem hmine
        obtain ⟨c, hc, hr⟩ := List.mem_flatMap.mp hmem
        obtain ⟨hcm, hcg, hcn⟩ := hbuf c hc
        have : (numbers c).isSome = true :=
          K c hcg hcm ⟨h, hmine, hr⟩
        rw [hcn] at this
        exact absurd this (by simp)
      refine ih _ _ ?_ ?_
      · intro h hh
        rcases f2 h hh with hl | ⟨hcs, hgr, _⟩
        · exact hvis h hl
        · exact ⟨hfresh h hcs, hgr⟩
      · intro h hh
        rcases f3 h hh with hl | ⟨hcs, hgr, _, _, hno⟩
        · exact absurd hl (List.not_mem_nil h)
        · exact ⟨hfresh h hcs, hgr, hno⟩

theorem floodFill_no_mine (R : Nat) (numbers : Hex → Option Nat)
    (mines : List Hex)
    (K : ∀ c, c.ulength ≤ R → c ∉ mines →
      (∃ m ∈ mines, m ∈ c.ring1) → (numbers c).isSome = true)
    (seed : Hex) (hg : seed.ulength ≤ R) (hm : seed ∉ mines)
    (hb : numbers seed = none) :
    ∀ h ∈ floodFill R numbers seed, h ∉ mines ∧ h.ulength ≤ R := by
  refine flood_no_mine_aux R numbers mines K _ [seed] [seed] ?_ ?_
  · intro h hh
    rw [List.mem_singleton] at hh
    subst hh
    exact ⟨hm, hg⟩
  · intro h hh
    rw [List.mem_singleton] at hh
    subst hh
    exact ⟨hm, hg, hb⟩

theorem floodLoop_nil (R : Nat) (numbers : Hex → Option Nat) (fuel : Nat)
    (vis : List Hex) : floodLoop R numbers fuel vis [] = (vis, []) := by
  cases fuel with
  | zero => rfl
  | succ fuel => rw [floodLoop]; rfl

theorem floodRound_grows (R : Nat) (numbers : Hex → Option Nat)
    (vis buf : List Hex) (hnd : vis.Nodup)
    (hne : (floodRound R numbers vis buf).2 ≠ []) :
    (floodRound R numbers vis buf).1.Nodup ∧
    (vis.filter (fun h => is_hex_within_grid R h)).length + 1 ≤
      ((floodRound R numbers vis buf).1.filter
        (fun h => is_hex_within_grid R h)).length := by
  obtain ⟨f1, _, f3, f4⟩ :=
    floodFold_spec R numbers (buf.flatMap Hex.ring1) vis []
  refine ⟨f4 hnd, ?_⟩
  obtain ⟨h₀, hh₀⟩ := List.exists_mem_of_ne_nil _ hne
  rcases f3 h₀ hh₀ with hl | ⟨_, hgr, hni, hin, _⟩
  · exact absurd hl (List.not_mem_nil h₀)
  · have hsub : (h₀ :: vis.filter (fun h => is_hex_within_grid R h)).Subperm
        ((floodRound R numbers vis buf).1.filter
          (fun h => is_hex_within_grid R h)) := by
      refine List.subperm_of_subset ?_ ?_
      · refine List.nodup_cons.mpr ⟨?_, hnd.filter _⟩
        intro hmem
        exact hni (List.mem_of_mem_filter hmem)
      · intro a ha
        rcases List.mem_cons.mp ha with rfl | hmem
        · rw [List.mem_filter]
          exact ⟨hin, by simpa [is_hex_within_grid] using hgr⟩
        · rw [List.mem_filter] at hmem ⊢
          exact ⟨f1 a hmem.1, hmem.2⟩
    have := hsub.length_le
    simpa using this

theorem floodLoop_empties (R : Nat) (numbers : Hex → Option Nat) :
    ∀ (fuel : Nat) (vis buf : List Hex), vis.Nodup →
      3 * R * (R + 1) + 2 ≤
        fuel + (vis.filter (fun h => is_hex_within_grid R h)).length →
      (floodLoop R numbers fuel vis buf).2 = [] := by
  intro fuel
  induction fuel with
  | zero =>
    intro vis buf hnd hge
    exfalso
    have hsub : (vis.filter (fun h => is_hex_within_grid R h)).Subperm
        (hexagon R) := by
      refine List.subperm_of_subset (hnd.filter _) ?_
      intro a ha
      rw [List.mem_filter] at ha
      exact mem_hexagon.mpr (is_hex_within_grid_iff.mp ha.2)
    have := hsub.length_le
    rw [hexagon_length] at this
    omega
  | succ fuel ih =>
    intro vis buf hnd hge
    rw [floodLoop]
    by_cases hemp : buf.isEmpty
    · rw [if_pos hemp]
      exact List.isEmpty_iff.mp hemp
    · rw [if_neg hemp]
      by_cases hb2 : (floodRound R numbers vis buf).2 = []
      · rw [hb2, floodLoop_nil]
      · obtain ⟨hnd2, hgrow⟩ := floodRound_grows R numbers vis buf hnd hb2
        exact ih _ _ hnd2 (by omega)

/-- With its chosen fuel the flood fill always runs the while loop to the
empty-buffer exit, exactly as the unbounded Rust loop does. -/
theorem floodFill_runs_to_completion (R : Nat) (numbers : Hex → Option Nat)
    (seed : Hex) :
    (floodLoop R numbers (3 * R * (R + 1) + 2) [seed] [seed]).2 = [] := by
  refine floodLoop_empties R numbers _ _ _ (List.nodup_singleton seed) ?_
  omega

/-! State-transition lemmas for setup, toggleFlag, revealAt, handle_input. -/

theorem setup_cells (R : Nat) : (setup R).cells = hexagon R := rfl

theorem setup_mines (R : Nat) : (setup R).mines = minesOf (hexagon R) := rfl

theorem setup_numbers (R : Nat) :
    (setup R).numbers = numbersOf R (minesOf (hexagon R)) := rfl

theorem setup_covered (R : Nat) : (setup R).covered = (hexagon R).toFinset := rfl

theorem setup_flagged (R : Nat) : (setup R).flagged = ∅ := rfl

theorem foldl_erase_mem (flagged : Finset Hex) (l : List Hex)
    (cov : Finset Hex) (h : Hex) :
    (h ∈ l.foldl (fun c x => if x ∈ flagged then c else c.erase x) cov) ↔
      h ∈ cov ∧ (h ∈ flagged ∨ h ∉ l) := by
  induction l generalizing cov with
  | nil => simp
  | cons a l ih =>
    rw [List.foldl_cons]
    by_cases ha : a ∈ flagged
    · rw [if_pos ha, ih]
      constructor
      · rintro ⟨hc, hrest⟩
        refine ⟨hc, ?_⟩
        rcases hrest with hf | hnl
        · exact Or.inl hf
        · by_cases heq : h = a
          · subst heq
            exact Or.inl ha
          · exact Or.inr (by simp [List.mem_cons, heq, hnl])
      · rintro ⟨hc, hrest⟩
        refine ⟨hc, ?_⟩
        rcases hrest with hf | hnl
        · exact Or.inl hf
        · exact Or.inr (fun hl => hnl (List.mem_cons_of_mem _ hl))
    · rw [if_neg ha, ih, Finset.mem_erase]
      constructor
      · rintro ⟨⟨hne, hc⟩, hrest⟩
        refine ⟨hc, ?_⟩
        rcases hrest with hf | hnl
        · exact Or.inl hf
        · exact Or.inr (by simp [List.mem_cons, hne, hnl])
      · rintro ⟨hc, hrest⟩
        rcases hrest with hf | hnl
        · have hne : h ≠ a := fun he => ha (he ▸ hf)
          exact ⟨⟨hne, hc⟩, Or.inl hf⟩
        · have hne : h ≠ a := fun he => hnl (he ▸ List.mem_cons_self a l)
          exact ⟨⟨hne, hc⟩, Or.inr (fun hl => hnl (List.mem_cons_of_mem _ hl))⟩

theorem toggleFlag_covered (c : Hex) (g : HexGrid) :
    (toggleFlag c g).covered = g.covered := by
  rw [toggleFlag]
  split_ifs <;> rfl

theorem toggleFlag_numbers (c : Hex) (g : HexGrid) :
    (toggleFlag c g).numbers = g.numbers := by
  rw [toggleFlag]
  split_ifs <;> rfl

theorem toggleFlag_mines (c : Hex) (g : HexGrid) :
    (toggleFlag c g).mines = g.mines := by
  rw [toggleFlag]
  split_ifs <;> rfl

theorem toggleFlag_cells (c : Hex) (g : HexGrid) :
    (toggleFlag c g).cells = g.cells := by
  rw [toggleFlag]
  split_ifs <;> rfl

theorem toggleFlag_flagged_mem (c : Hex) (g : HexGrid) (a : Hex) :
    a ∈ (toggleFlag c g).flagged ↔
      (a ∈ g.flagged ∧ ¬(a = c ∧ c ∈ g.flagged)) ∨ (a = c ∧ c ∉ g.flagged) := by
  rw [toggleFlag]
  split_ifs with hc
  · simp only [Finset.mem_erase]
    constructor
    · rintro ⟨hne, hmem⟩
      exact Or.inl ⟨hmem, fun hp => hne hp.1⟩
    · rintro (⟨hmem, hnp⟩ | ⟨rfl, hnc⟩)
      · exact ⟨fun he => hnp ⟨he, hc⟩, hmem⟩
      · exact absurd hc hnc
  · simp only [Finset.mem_insert]
    constructor
    · rintro (rfl | hmem)
      · exact Or.inr ⟨rfl, hc⟩
      · exact Or.inl ⟨hmem, fun hp => hc (hp.1 ▸ hmem)⟩
    · rintro (⟨hmem, _⟩ | ⟨rfl, _⟩)
      · exact Or.inr hmem
      · exact Or.inl rfl

theorem revealAt_flagged (R : Nat) (c : Hex) (g : HexGrid) :
    (revealAt R c g).flagged = g.flagged := by
  rw [revealAt]
  split_ifs <;> rfl

theorem revealAt_numbers (R : Nat) (c : Hex) (g : HexGrid) :
    (revealAt R c g).numbers = g.numbers := by
  rw [revealAt]
  split_ifs <;> rfl

theorem revealAt_mines (R : Nat) (c : Hex) (g : HexGrid) :
    (revealAt R c g).mines = g.mines := by
  rw [revealAt]
  split_ifs <;> rfl

theorem revealAt_cells (R : Nat) (c : Hex) (g : HexGrid) :
    (revealAt R c g).cells = g.cells := by
  rw [revealAt]
  split_ifs <;> rfl

theorem revealAt_covered_of_nonblank (R : Nat) (c : Hex) (g : HexGrid)
    (hcase : c ∈ g.mines ∨ (g.numbers c).isSome = true) :
    (revealAt R c g).covered = g.covered.erase c := by
  rw [revealAt]
  by_cases hm : c ∈ g.mines
  · rw [if_pos hm]
  · rw [if_neg hm, if_pos (hcase.resolve_left hm)]

theorem revealAt_covered_of_blank (R : Nat) (c : Hex) (g : HexGrid)
    (hm : c ∉ g.mines) (hs : g.numbers c = none) :
    (revealAt R c g).covered =
      ((floodFill R g.numbers c).foldl
        (fun cov h => if h ∈ g.flagged then cov else cov.erase h)
        g.covered).erase c := by
  rw [revealAt, if_neg hm, if_neg (by simp [hs])]

theorem revealAt_covered_subset (R : Nat) (c : Hex) (g : HexGrid) :
    (revealAt R c g).covered ⊆ g.covered := by
  intro a ha
  by_cases hm : c ∈ g.mines
  · rw [revealAt_covered_of_nonblank R c g (Or.inl hm)] at ha
    exact Finset.mem_of_mem_erase ha
  · by_cases hs : (g.numbers c).isSome = true
    · rw [revealAt_covered_of_nonblank R c g (Or.inr hs)] at ha
      exact Finset.mem_of_mem_erase ha
    · rw [revealAt_covered_of_blank R c g hm
        (Option.not_isSome_iff_eq_none.mp hs)] at ha
      have := Finset.mem_of_mem_erase ha
      exact ((foldl_erase_mem g.flagged _ g.covered a).mp this).1

theorem revealAt_keeps_flagged_covered (R : Nat) (c : Hex) (g : HexGrid)
    (hc : c ∉ g.flagged) (a : Hex) (haf : a ∈ g.flagged) (hac : a ∈ g.covered) :
    a ∈ (revealAt R c g).covered := by
  have hne : a ≠ c := fun he => hc (he ▸ haf)
  by_cases hm : c ∈ g.mines
  · rw [revealAt_covered_of_nonblank R c g (Or.inl hm)]
    exact Finset.mem_erase.mpr ⟨hne, hac⟩
  · by_cases hs : (g.numbers c).isSome = true
    · rw [revealAt_covered_of_nonblank R c g (Or.inr hs)]
      exact Finset.mem_erase.mpr ⟨hne, hac⟩
    · rw [revealAt_covered_of_blank R c g hm
        (Option.not_isSome_iff_eq_none.mp hs)]
      refine Finset.mem_erase.mpr ⟨hne, ?_⟩
      exact (foldl_erase_mem g.flagged _ g.covered a).mpr ⟨hac, Or.inl haf⟩

theorem handle_input_numbers (R : Nat) (cursor : Option Hex) (rB lB : Bool)
    (g : HexGrid) : (handle_input R cursor rB lB g).numbers = g.numbers := by
  cases cursor with
  | none => rfl
  | some c =>
    rw [handle_input]
    split_ifs <;> simp only [revealAt_numbers, toggleFlag_numbers]

theorem handle_input_mines (R : Nat) (cursor : Option Hex) (rB lB : Bool)
    (g : HexGrid) : (handle_input R cursor rB lB g).mines = g.mines := by
  cases cursor with
  | none => rfl
  | some c =>
    rw [handle_input]
    split_ifs <;> simp only [revealAt_mines, toggleFlag_mines]

theorem handle_input_cells (R : Nat) (cursor : Option Hex) (rB lB : Bool)
    (g : HexGrid) : (handle_input R cursor rB lB g).cells = g.cells := by
  cases cursor with
  | none => rfl
  | some c =>
    rw [handle_input]
    split_ifs <;> simp only [revealAt_cells, toggleFlag_cells]

theorem handle_input_covered_subset (R : Nat) (cursor : Option Hex)
    (rB lB : Bool) (g : HexGrid) :
    (handle_input R cursor rB lB g).covered ⊆ g.covered := by
  cases cursor with
  | none => exact fun a ha => ha
  | some c =>
    rw [handle_input]
    split_ifs with h1 h2 h2
    · intro a ha
      have := revealAt_covered_subset R c _ ha
      rwa [toggleFlag_covered] at this
    · intro a ha
      rwa [toggleFlag_covered] at ha
    · exact revealAt_covered_subset R c g
    · exact fun a ha => ha

theorem toggleFlag_flag_inv (c : Hex) (g : HexGrid)
    (hinv : ∀ a ∈ g.flagged, a ∈ g.covered) (hc : c ∈ g.covered) :
    ∀ a ∈ (toggleFlag c g).flagged, a ∈ (toggleFlag c g).covered := by
  intro a ha
  rw [toggleFlag_covered]
  rw [toggleFlag_flagged_mem] at ha
  rcases ha with ⟨hmem, _⟩ | ⟨rfl, _⟩
  · exact hinv a hmem
  · exact hc

theorem revealAt_flag_inv (R : Nat) (c : Hex) (g : HexGrid)
    (hinv : ∀ a ∈ g.flagged, a ∈ g.covered) (hc : c ∉ g.flagged) :
    ∀ a ∈ (revealAt R c g).flagged, a ∈ (revealAt R c g).covered := by
  intro a ha
  rw [revealAt_flagged] at ha
  exact revealAt_keeps_flagged_covered R c g hc a ha (hinv a ha)

theorem handle_input_flag_inv (R : Nat) (cursor : Option Hex) (rB lB : Bool)
    (g : HexGrid) (hinv : ∀ a ∈ g.flagged, a ∈ g.covered) :
    ∀ a ∈ (handle_input R cursor rB lB g).flagged,
      a ∈ (handle_input R cursor rB lB g).covered := by
  cases cursor with
  | none => exact hinv
  | some c =>
    rw [handle_input]
    split_ifs with h1 h2 h2
    · exact revealAt_flag_inv R c _ (toggleFlag_flag_inv c g hinv h1.2) h2.2.1
    · exact toggleFlag_flag_inv c g hinv h1.2
    · exact revealAt_flag_inv R c g hinv h2.2.1
    · exact hinv

theorem runInputs_flag_inv (R : Nat) (events : List InputEvent) :
    ∀ a ∈ (runInputs R (setup R) events).flagged,
      a ∈ (runInputs R (setup R) events).covered := by
  rw [runInputs]
  have H : ∀ (evs : List InputEvent) (g : HexGrid),
      (∀ a ∈ g.flagged, a ∈ g.covered) →
      ∀ a ∈ (evs.foldl (fun g e =>
          handle_input R (cursorWithinGrid R e.hover) e.rightBtn e.leftBtn g)
        g).flagged,
      a ∈ (evs.foldl (fun g e =>
          handle_input R (cursorWithinGrid R e.hover) e.rightBtn e.leftBtn g)
        g).covered := by
    intro evs
    induction evs with
    | nil => intro g hinv; exact hinv
    | cons e evs ih =>
      intro g hinv
      rw [List.foldl_cons]
      exact ih _ (handle_input_flag_inv R _ _ _ g hinv)
  refine H events (setup R) ?_
  intro a ha
  rw [setup_flagged] at ha
  exact absurd ha (Finset.not_mem_empty a)

theorem handle_input_reveal_eq (R : Nat) (c : Hex) (g : HexGrid) :
    handle_input R (some c) false true g =
      if c ∉ g.flagged ∧ c ∈ g.covered then revealAt R c g else g := by
  simp [handle_input]

theorem handle_input_toggle_eq (R : Nat) (c : Hex) (g : HexGrid) :
    handle_input R (some c) true false g =
      if c ∈ g.covered then toggleFlag c g else g := by
  simp [handle_input]

/-! Claim theorems. -/

/-- C1: on a board produced by setup, the flood fill seeded at a cell that
is neither a mine nor a numbered cell returns no mine and no cell whose
cube length exceeds the grid radius. -/
theorem flood_fill_no_mine_within_grid (R : Nat) (seed : Hex)
    (hcell : seed ∈ (setup R).cells)
    (hnum : (setup R).numbers seed = none)
    (hmine : seed ∉ (setup R).mines) :
    ∀ h ∈ floodFill R (setup R).numbers seed,
      h ∉ (setup R).mines ∧ h.ulength ≤ R := by
  rw [setup_cells] at hcell
  rw [setup_numbers] at hnum
  rw [setup_mines] at hmine
  have K : ∀ c : Hex, c.ulength ≤ R → c ∉ minesOf (hexagon R) →
      (∃ m ∈ minesOf (hexagon R), m ∈ c.ring1) →
      ((numbersOf R (minesOf (hexagon R))) c).isSome = true := by
    rintro c hcg hcm ⟨m, hmm, hma⟩
    exact numbersOf_isSome_of_mine_neighbor hcg hcm hmm hma
  intro h hh
  rw [setup_numbers] at hh
  rw [setup_mines]
  exact floodFill_no_mine R _ _ K seed (mem_hexagon.mp hcell) hmine hnum h hh

theorem flood_fill_no_mine_within_grid_witness :
    (⟨0, 0⟩ : Hex) ∈ (setup 2).cells ∧
    ∀ h ∈ floodFill 2 (setup 2).numbers ⟨0, 0⟩,
      h ∉ (setup 2).mines ∧ h.ulength ≤ 2 :=
  ⟨by decide,
    flood_fill_no_mine_within_grid 2 ⟨0, 0⟩ (by decide) (by decide) (by decide)⟩

/-- C2: after every sequence of inputs the flagged set is contained in the
covered set, and a further reveal input (left press) leaves every currently
flagged cell flagged and covered. -/
theorem flagged_subset_covered_invariant (R : Nat) (events : List InputEvent) :
    (∀ a ∈ (runInputs R (setup R) events).flagged,
      a ∈ (runInputs R (setup R) events).covered) ∧
    ∀ (cursor : Option Hex) (a : Hex),
      a ∈ (runInputs R (setup R) events).flagged →
      a ∈ (handle_input R cursor false true
        (runInputs R (setup R) events)).flagged ∧
      a ∈ (handle_input R cursor false true
        (runInputs R (setup R) events)).covered := by
  refine ⟨runInputs_flag_inv R events, ?_⟩
  intro cursor a ha
  have hflag : (handle_input R cursor false true
      (runInputs R (setup R) events)).flagged =
      (runInputs R (setup R) events).flagged := by
    cases cursor with
    | none => rfl
    | some c =>
      rw [handle_input_reveal_eq]
      split_ifs with h2
      · exact revealAt_flagged R c _
      · rfl
  refine ⟨by rw [hflag]; exact ha, ?_⟩
  exact handle_input_flag_inv R cursor false true _
    (runInputs_flag_inv R events) a (by rw [hflag]; exact ha)

theorem flagged_subset_covered_invariant_witness :
    (⟨0, 1⟩ : Hex) ∈
      (runInputs 1 (setup 1) [⟨some ⟨0, 1⟩, true, false⟩]).flagged ∧
    (⟨0, 1⟩ : Hex) ∈
      (runInputs 1 (setup 1) [⟨some ⟨0, 1⟩, true, false⟩]).covered ∧
    (⟨0, 1⟩ : Hex) ∈ (handle_input 1 (some ⟨1, 0⟩) false true
      (runInputs 1 (setup 1) [⟨some ⟨0, 1⟩, true, false⟩])).flagged ∧
    (⟨0, 1⟩ : Hex) ∈ (handle_input 1 (some ⟨1, 0⟩) false true
      (runInputs 1 (setup 1) [⟨some ⟨0, 1⟩, true, false⟩])).covered := by
  have h := flagged_subset_covered_invariant 1 [⟨some ⟨0, 1⟩, true, false⟩]
  have h2 := h.2 (some ⟨1, 0⟩) ⟨0, 1⟩ (by decide)
  exact ⟨by decide, h.1 ⟨0, 1⟩ (by decide), h2.1, h2.2⟩

/-- C3 counterexample: on the generated radius-1 board the numbers map
stores the value 0 (the code stores the adjacent-mine count minus one), so
it is false that every stored value lies in the interval from 1 to 6. -/
theorem numbers_value_range_claim_false :
    ¬ ∀ (h : Hex) (v : Nat), (setup 1).numbers h = some v → 1 ≤ v ∧ v ≤ 6 := by
  intro hall
  have h0 := (hall ⟨-1, 1⟩ 0 (by decide)).1
  omega

/-- C3 amended: on every generated board the numbers domain is disjoint
from the mine set, every key lies within the grid, and every stored value
lies in the interval from 0 to 5 (it is the adjacent-mine count minus one),
rather than the claimed 1 to 6. -/
theorem numbers_domain_and_range (R : Nat) (h : Hex) (v : Nat)
    (hv : (setup R).numbers h = some v) :
    h ∉ (setup R).mines ∧ h.ulength ≤ R ∧ v ≤ 5 := by
  rw [setup_numbers] at hv
  obtain ⟨hm, hg, hvv⟩ := numbersOf_eq_some hv
  have hb := adjBumps_le_six (minesOf_nodup (hexagon_nodup R)) h
  refine ⟨?_, hg, by omega⟩
  rw [setup_mines]
  exact hm

theorem numbers_domain_and_range_witness :
    (setup 1).numbers ⟨0, 0⟩ = some 1 ∧
    (⟨0, 0⟩ : Hex) ∉ (setup 1).mines ∧ (⟨0, 0⟩ : Hex).ulength ≤ 1 ∧ 1 ≤ 5 :=
  ⟨by decide, numbers_domain_and_range 1 ⟨0, 0⟩ 1 (by decide)⟩

/-- C4: a reveal on an out-of-grid coordinate, on an uncovered cell or on a
flagged cell, and a flag toggle on an out-of-grid coordinate or on an
uncovered cell, leave the whole game state unchanged. -/
theorem rejected_inputs_are_noops (R : Nat) (g : HexGrid) (h : Hex)
    (rB lB : Bool) :
    (¬ h.ulength ≤ R →
      handle_input R (cursorWithinGrid R (some h)) rB lB g = g) ∧
    (h ∉ g.covered → handle_input R (some h) false true g = g) ∧
    (h ∈ g.flagged → handle_input R (some h) false true g = g) ∧
    (h ∉ g.covered → handle_input R (some h) true false g = g) := by
  refine ⟨?_, ?_, ?_, ?_⟩
  · intro hg
    have : cursorWithinGrid R (some h) = none := by
      rw [cursorWithinGrid, if_neg (by simpa [is_hex_within_grid] using hg)]
    rw [this]
    rfl
  · intro hcov
    rw [handle_input_reveal_eq, if_neg (fun hp => hcov hp.2)]
  · intro hfl
    rw [handle_input_reveal_eq, if_neg (fun hp => hp.1 hfl)]
  · intro hcov
    rw [handle_input_toggle_eq, if_neg hcov]

theorem rejected_inputs_are_noops_witness :
    handle_input 1 (cursorWithinGrid 1 (some ⟨2, 0⟩)) true true (setup 1) =
      setup 1 ∧
    handle_input 1 (some ⟨0, 0⟩)
      false true ⟨[], ∅, fun _ => none, [], ∅⟩ = ⟨[], ∅, fun _ => none, [], ∅⟩ ∧
    handle_input 1 (some ⟨0, 0⟩) false true
        ⟨[], {⟨0, 0⟩}, fun _ => none, [], {⟨0, 0⟩}⟩ =
      ⟨[], {⟨0, 0⟩}, fun _ => none, [], {⟨0, 0⟩}⟩ ∧
    handle_input 1 (some ⟨0, 0⟩)
      true false ⟨[], ∅, fun _ => none, [], ∅⟩ = ⟨[], ∅, fun _ => none, [], ∅⟩ :=
  ⟨(rejected_inputs_are_noops 1 (setup 1) ⟨2, 0⟩ true true).1 (by decide),
    (rejected_inputs_are_noops 1 _ ⟨0, 0⟩ false true).2.1 (by decide),
    (rejected_inputs_are_noops 1 _ ⟨0, 0⟩ false true).2.2.1 (by decide),
    (rejected_inputs_are_noops 1 _ ⟨0, 0⟩ true false).2.2.2 (by decide)⟩

/-- C5: covered starts as the full cell set and only ever shrinks: one more
input event never adds a cell back to covered. -/
theorem covered_monotone (R : Nat) (events : List InputEvent) (e : InputEvent) :
    (setup R).covered = (setup R).cells.toFinset ∧
    ∀ a ∈ (runInputs R (setup R) (events ++ [e])).covered,
      a ∈ (runInputs R (setup R) events).covered := by
  refine ⟨rfl, ?_⟩
  intro a ha
  rw [runInputs, List.foldl_append, List.foldl_cons, List.foldl_nil] at ha
  rw [runInputs]
  exact handle_input_covered_subset R _ _ _ _ ha

theorem covered_monotone_witness :
    (setup 1).covered = (setup 1).cells.toFinset ∧
    (⟨1, 0⟩ : Hex) ∈
      (runInputs 1 (setup 1) ([] ++ [⟨some ⟨0, 0⟩, false, true⟩])).covered ∧
    (⟨1, 0⟩ : Hex) ∈ (runInputs 1 (setup 1) []).covered :=
  ⟨(covered_monotone 1 [] ⟨some ⟨0, 0⟩, false, true⟩).1, by decide,
    (covered_monotone 1 [] ⟨some ⟨0, 0⟩, false, true⟩).2 ⟨1, 0⟩ (by decide)⟩

/-- C6: a reveal on a covered, unflagged key of the numbers map removes
exactly that cell from covered and leaves flagged unchanged. -/
theorem reveal_numbered_exact (R : Nat) (g : HexGrid) (c : Hex)
    (hcov : c ∈ g.covered) (hfl : c ∉ g.flagged)
    (hnum : (g.numbers c).isSome = true) :
    (handle_input R (some c) false true g).covered = g.covered.erase c ∧
    (handle_input R (some c) false true g).flagged = g.flagged := by
  rw [handle_input_reveal_eq, if_pos ⟨hfl, hcov⟩,
    revealAt_covered_of_nonblank R c g (Or.inr hnum), revealAt_flagged]
  exact ⟨rfl, rfl⟩

theorem reveal_numbered_exact_witness :
    (handle_input 1 (some ⟨0, 0⟩) false true (setup 1)).covered =
      (setup 1).covered.erase ⟨0, 0⟩ ∧
    (handle_input 1 (some ⟨0, 0⟩) false true (setup 1)).flagged =
      (setup 1).flagged :=
  reveal_numbered_exact 1 (setup 1) ⟨0, 0⟩ (by decide) (by decide) (by decide)

/-- C7: the flood fill is a pure function of the board and the seed: no
input ever changes the cells, numbers or mines of the grid, and therefore
re-running the flood fill from the same seed after any input produces the
identical result. -/
theorem flood_fill_deterministic (R : Nat) (g : HexGrid)
    (cursor : Option Hex) (rB lB : Bool) (seed : Hex) :
    (handle_input R cursor rB lB g).numbers = g.numbers ∧
    (handle_input R cursor rB lB g).mines = g.mines ∧
    (handle_input R cursor rB lB g).cells = g.cells ∧
    floodFill R (handle_input R cursor rB lB g).numbers seed =
      floodFill R g.numbers seed := by
  refine ⟨handle_input_numbers R cursor rB lB g,
    handle_input_mines R cursor rB lB g,
    handle_input_cells R cursor rB lB g, ?_⟩
  rw [handle_input_numbers]

/-- C8: for every radius the generated cell set has exactly 3R(R+1)+1
cells, each with cube length at most R. -/
theorem generated_cells_count (R : Nat) :
    (setup R).cells.toFinset.card = 3 * R * (R + 1) + 1 ∧
    ∀ h ∈ (setup R).cells, h.ulength ≤ R := by
  constructor
  · rw [setup_cells, List.toFinset_card_of_nodup (hexagon_nodup R),
      hexagon_length]
  · intro h hh
    rw [setup_cells] at hh
    exact mem_hexagon.mp hh

theorem generated_cells_count_witness :
    (setup 1).cells.toFinset.card = 3 * 1 * (1 + 1) + 1 ∧
    (⟨0, 1⟩ : Hex) ∈ (setup 1).cells ∧ (⟨0, 1⟩ : Hex).ulength ≤ 1 :=
  ⟨(generated_cells_count 1).1, by decide,
    (generated_cells_count 1).2 ⟨0, 1⟩ (by decide)⟩

/-- C9: the mine set is exactly the set of cells sitting at an enumeration
index divisible by 6, and mine selection is a deterministic function of the
enumerated cell list. -/
theorem mine_placement_rule (R : Nat) (h : Hex) :
    (h ∈ (setup R).mines ↔
      ∃ i, i % 6 = 0 ∧ (setup R).cells[i]? = some h) ∧
    ∀ R₂ : Nat, (setup R).cells = (setup R₂).cells →
      (setup R).mines = (setup R₂).mines := by
  constructor
  · rw [setup_mines, setup_cells]
    exact mem_minesOf
  · intro R₂ hc
    rw [setup_cells, setup_cells] at hc
    rw [setup_mines, setup_mines, hc]

theorem mine_placement_rule_witness :
    ((⟨-1, 0⟩ : Hex) ∈ (setup 1).mines ↔
      ∃ i, i % 6 = 0 ∧ (setup 1).cells[i]? = some ⟨-1, 0⟩) ∧
    (setup 1).mines = (setup 1).mines :=
  ⟨(mine_placement_rule 1 ⟨-1, 0⟩).1, (mine_placement_rule 1 ⟨-1, 0⟩).2 1 rfl⟩

/-- C10: every value stored in the numbers map is strictly below 6, so
using it as an index into the 6-element number-sprite array stays within
bounds. -/
theorem numbers_value_within_sprite_array (R : Nat) (h : Hex) (v : Nat)
    (hv : (setup R).numbers h = some v) : v < 6 := by
  rw [setup_numbers] at hv
  obtain ⟨_, _, hvv⟩ := numbersOf_eq_some hv
  have hb := adjBumps_le_six (minesOf_nodup (hexagon_nodup R)) h
  omega

theorem numbers_value_within_sprite_array_witness :
    (setup 1).numbers ⟨0, 0⟩ = some 1 ∧ 1 < 6 :=
  ⟨by decide, numbers_value_within_sprite_array 1 ⟨0, 0⟩ 1 (by decide)⟩
